import Mathlib

/-!
Verification of the batching buffer in `src/PgQueuer/buffers.py`.

The file shallowly embeds the `JobBuffer` class.  Jobs and status records are
opaque payloads, so a buffered event is modelled by a type parameter `E`
(standing for the pair `(Job, STATUS_LOG)`).  Clock readings from
`_perf_counter_dt` are modelled as integers (only elapsed-time comparisons are
performed on them), and the `timeout` timedelta as an integer duration in the
same units.  The externally supplied asynchronous `flush_callback` may succeed
or raise; each operation therefore takes a boolean `sinkOk` telling what the
sink would do if it were invoked during that operation.  The third component of
each operation's result is `true` when the operation returns normally and
`false` when the sink's exception propagates out of it; the second component
records the batch passed to the sink, when the sink was invoked at all.
-/

namespace PgQueuer

variable {E : Type}

/-- State of a `JobBuffer` (`__init__`, lines 37-52): `max_size` and `timeout`
are stored unchecked; `alive` is the `asyncio.Event` (set at construction);
`events` starts empty; `last_event_time` is the construction-time clock
reading.  The `flush_callback` and the `asyncio.Lock` carry no state that the
claims observe, so they are not fields; the lock is modelled separately by the
action traces below. -/
structure JobBuffer (E : Type) where
  max_size : Int
  timeout : Int
  events : List E
  last_event_time : Int
  alive : Bool
deriving DecidableEq, Repr

/-- `JobBuffer.__init__`: stores `max_size` and `timeout` without any
validation, sets `alive`, and initializes `events := []` and
`last_event_time` to the current clock reading `now`. -/
def initBuffer (E : Type) (max_size timeout now : Int) : JobBuffer E :=
  { max_size := max_size, timeout := timeout, events := [],
    last_event_time := now, alive := true }

/-- `JobBuffer.flush_jobs` (lines 65-72): if `events` is non-empty, call
`flush_callback(self.events)`; only when that call returns normally, clear
`events`.  Result: (state on exit, batch handed to the sink if it was invoked,
whether the method returned without an exception). -/
def flush_jobs (b : JobBuffer E) (sinkOk : Bool) :
    JobBuffer E × Option (List E) × Bool :=
  if b.events.isEmpty then (b, none, true)
  else if sinkOk then ({ b with events := [] }, some b.events, true)
  else (b, some b.events, false)

/-- `JobBuffer.add_job` (lines 54-63): under the lock, append `(job, status)`
to `events`, set `last_event_time` to the current clock reading, and if
`len(events) >= max_size` call `flush_jobs` (still under the same lock
acquisition).  A sink exception raised by that flush propagates to the caller
of `add_job`. -/
def add_job (b : JobBuffer E) (e : E) (now : Int) (sinkOk : Bool) :
    JobBuffer E × Option (List E) × Bool :=
  let b1 := { b with events := b.events ++ [e], last_event_time := now }
  if b.max_size ≤ (b1.events.length : Int) then flush_jobs b1 sinkOk
  else (b1, none, true)

/-- One post-sleep body of `JobBuffer.monitor` (lines 81-83): under the lock,
if `now - last_event_time >= timeout`, call `flush_jobs`. -/
def monitor_cycle (b : JobBuffer E) (now : Int) (sinkOk : Bool) :
    JobBuffer E × Option (List E) × Bool :=
  if b.timeout ≤ now - b.last_event_time then flush_jobs b sinkOk
  else (b, none, true)

/-- `JobBuffer.monitor` (lines 74-83): loop while `alive.is_set()`; each
iteration sleeps `timeout` seconds and then runs the `monitor_cycle` body; a
sink exception propagates out of `monitor`, ending the loop.  `alive` is
cleared asynchronously by external code, so the value `alive.is_set()` returns
at each top-of-loop check is an input: the schedule lists, per iteration, that
value together with the clock reading at the wake and the sink behaviour.
Result: final state and the list of (batch, sink succeeded) sink calls made. -/
def monitorLoop : JobBuffer E → List (Bool × Int × Bool) →
    JobBuffer E × List (List E × Bool)
  | b, [] => (b, [])
  | b, w :: rest =>
    if w.1 then
      let s := monitor_cycle b w.2.1 w.2.2
      if s.2.2 then
        let r := monitorLoop s.1 rest
        (r.1, (s.2.1.map fun batch => (batch, true)).toList ++ r.2)
      else
        (s.1, (s.2.1.map fun batch => (batch, false)).toList)
    else (b, [])

/-- An operation invoked on the buffer by some caller: a producer's
`add_job(e)` at clock reading `now`, a direct external `flush_jobs()` call, or
one wake of the monitor at clock reading `now`.  The boolean is the sink's
behaviour if it gets invoked during the operation. -/
inductive Op (E : Type) where
  | add (e : E) (now : Int) (sinkOk : Bool)
  | flush (sinkOk : Bool)
  | monitorWake (now : Int) (sinkOk : Bool)
deriving DecidableEq, Repr

/-- Dispatch one operation. -/
def stepOp (b : JobBuffer E) : Op E → JobBuffer E × Option (List E) × Bool
  | .add e now ok => add_job b e now ok
  | .flush ok => flush_jobs b ok
  | .monitorWake now ok => monitor_cycle b now ok

/-- The sink interaction of one operation result: `some (batch, ok)` when the
sink was invoked with `batch` and succeeded iff `ok`; `none` when the sink was
not invoked. -/
def outOf (r : JobBuffer E × Option (List E) × Bool) : Option (List E × Bool) :=
  r.2.1.map fun batch => (batch, r.2.2)

/-- Run a sequence of operations (the lock serializes them, so a concurrent
history is a sequence of lock-acquisition-ordered operations).  A sink
exception propagates to that operation's caller only; the buffer object
survives and later operations proceed from its state.  Returns the final state
and, per operation, its sink interaction. -/
def runOps : JobBuffer E → List (Op E) → JobBuffer E × List (Option (List E × Bool))
  | b, [] => (b, [])
  | b, op :: rest =>
    let s := stepOp b op
    let r := runOps s.1 rest
    (r.1, outOf s :: r.2)

/-- The events appended (in order) by the `add` operations of a history. -/
def addsOf (ops : List (Op E)) : List E :=
  ops.filterMap fun op => match op with
    | .add e _ _ => some e
    | _ => none

/-- Does this sink interaction report a successful sink call? -/
def outSuccess : Option (List E × Bool) → Bool
  | some c => c.2
  | none => false

/-- Does any operation's sink interaction report success? -/
def hasSuccess (outs : List (Option (List E × Bool))) : Bool :=
  outs.any outSuccess

/-!
Lock model.  `self.lock` is a single `asyncio.Lock`.  To reason about which
accesses happen while it is held, each method body is rendered as the sequence
of atomic actions it performs on the shared resources: lock acquisitions and
releases, touches (reads or writes) of `events` and of `last_event_time`, and
sink invocations.  The traces follow the Python statements line by line;
`async with self.lock` contributes the leading `acquire` and the trailing
`release`, the latter performed on every exit path including a propagating
sink exception.
-/

/-- An atomic action on the buffer's shared resources. -/
inductive Act (E : Type) where
  | acquire
  | release
  | touchEvents
  | touchLast
  | sink (batch : List E)
deriving DecidableEq, Repr

/-- Action trace of `flush_jobs` (lines 70-72): read `events` for the
truthiness test; when non-empty, read `events` to pass it to the callback and
invoke the sink; when the sink returns normally, clear `events`.  Note the
method performs no lock acquisition of its own. -/
def flushTrace (b : JobBuffer E) (sinkOk : Bool) : List (Act E) :=
  Act.touchEvents ::
    (if b.events.isEmpty then []
     else Act.touchEvents :: Act.sink b.events ::
       (if sinkOk then [Act.touchEvents] else []))

/-- Action trace of `add_job` (lines 59-63): acquire the lock; append to
`events`; write `last_event_time`; read `len(events)` for the threshold test;
when triggered, perform the `flush_jobs` actions inline; release the lock on
every exit path. -/
def addTrace (b : JobBuffer E) (e : E) (now : Int) (sinkOk : Bool) :
    List (Act E) :=
  let b1 := { b with events := b.events ++ [e], last_event_time := now }
  Act.acquire :: Act.touchEvents :: Act.touchLast :: Act.touchEvents ::
    ((if b.max_size ≤ (b1.events.length : Int) then flushTrace b1 sinkOk
      else []) ++ [Act.release])

/-- Action trace of one `monitor` iteration body (lines 81-83): acquire the
lock; read `last_event_time` for the elapsed-time test; when triggered,
perform the `flush_jobs` actions inline; release the lock on every exit
path. -/
def monitorCycleTrace (b : JobBuffer E) (now : Int) (sinkOk : Bool) :
    List (Act E) :=
  Act.acquire :: Act.touchLast ::
    ((if b.timeout ≤ now - b.last_event_time then flushTrace b sinkOk
      else []) ++ [Act.release])

/-- Given a starting lock depth, check that every touch of shared state and
every sink invocation in the trace happens while the lock is held. -/
def touchesLocked : Nat → List (Act E) → Bool
  | _, [] => true
  | d, Act.acquire :: r => touchesLocked (d + 1) r
  | d, Act.release :: r => touchesLocked (d - 1) r
  | d, _ :: r => decide (d ≠ 0) && touchesLocked d r

/-- Number of lock acquisitions in a trace. -/
def acquires : List (Act E) → Nat
  | [] => 0
  | Act.acquire :: r => acquires r + 1
  | _ :: r => acquires r

lemma flushTrace_touchesLocked (b : JobBuffer E) (sinkOk : Bool) (d : Nat)
    (hd : d ≠ 0) (t : List (Act E)) (ht : touchesLocked d t = true) :
    touchesLocked d (flushTrace b sinkOk ++ t) = true := by
  unfold flushTrace
  rcases b.events.isEmpty with _ | _ <;> rcases sinkOk with _ | _ <;>
    simp [touchesLocked, hd, ht]

lemma flushTrace_acquires (b : JobBuffer E) (sinkOk : Bool) :
    acquires (flushTrace b sinkOk) = 0 := by
  unfold flushTrace
  rcases b.events.isEmpty with _ | _ <;> rcases sinkOk with _ | _ <;>
    simp [acquires]

/-- Claim C5: flushing an empty buffer returns immediately: the sink is not
invoked and the buffer state is unchanged. -/
theorem idempotent_empty_flush (b : JobBuffer E) (sinkOk : Bool)
    (h : b.events = []) : flush_jobs b sinkOk = (b, none, true) := by
  simp [flush_jobs, h]

/-- Witness for C5 at a concrete buffer. -/
theorem idempotent_empty_flush_witness :
    (initBuffer Nat 3 5 0).events = [] ∧
      flush_jobs (initBuffer Nat 3 5 0) true = (initBuffer Nat 3 5 0, none, true) :=
  ⟨rfl, idempotent_empty_flush (initBuffer Nat 3 5 0) true rfl⟩

/-- Claim C9: `last_event_time` is initialized to the construction-time clock
reading, is set to the current clock reading by every `add_job` (whether or
not its triggered flush succeeds), and is never modified by `flush_jobs` or by
a monitor cycle, successful or failed. -/
theorem last_event_time_frame (b : JobBuffer E) (e : E)
    (m t n0 now : Int) (sinkOk : Bool) :
    (initBuffer E m t n0).last_event_time = n0 ∧
    (add_job b e now sinkOk).1.last_event_time = now ∧
    (flush_jobs b sinkOk).1.last_event_time = b.last_event_time ∧
    (monitor_cycle b now sinkOk).1.last_event_time = b.last_event_time := by
  refine ⟨rfl, ?_, ?_, ?_⟩
  · unfold add_job flush_jobs
    rcases sinkOk with _ | _ <;> split <;> simp_all <;> split <;> simp_all
  · unfold flush_jobs
    rcases sinkOk with _ | _ <;> split <;> simp_all
  · unfold monitor_cycle flush_jobs
    rcases sinkOk with _ | _ <;> split <;> simp_all <;> split <;> simp_all

/-- Concrete buffer builder used by witnesses and counterexamples. -/
def mkBuf (ms tmo : Int) (es : List Nat) (lt : Int) : JobBuffer Nat :=
  { max_size := ms, timeout := tmo, events := es,
    last_event_time := lt, alive := true }

/-- Claim C4: in a monitor wake cycle, if the elapsed time since
`last_event_time` is at least `timeout` and events are pending, exactly one
sink invocation occurs, with exactly the pending events; if the elapsed time
suffices but nothing is pending, the sink is not invoked and the state is
unchanged; if the elapsed time is below `timeout`, no flush is triggered at
all. -/
theorem timeout_trigger (b : JobBuffer E) (now : Int) (sinkOk : Bool) :
    (b.timeout ≤ now - b.last_event_time → b.events ≠ [] →
      monitor_cycle b now sinkOk =
        (if sinkOk then ({ b with events := [] }, some b.events, true)
         else (b, some b.events, false))) ∧
    (b.timeout ≤ now - b.last_event_time → b.events = [] →
      monitor_cycle b now sinkOk = (b, none, true)) ∧
    (now - b.last_event_time < b.timeout →
      monitor_cycle b now sinkOk = (b, none, true)) := by
  refine ⟨fun h hne => ?_, fun h he => ?_, fun h => ?_⟩
  · rcases sinkOk with _ | _ <;>
      simp [monitor_cycle, flush_jobs, h, List.isEmpty_iff, hne]
  · simp [monitor_cycle, flush_jobs, h, he]
  · have hn : ¬ b.timeout ≤ now - b.last_event_time := by omega
    simp [monitor_cycle, hn]

/-- Witness for C4: a pending event and an elapsed time equal to the timeout
produce exactly one sink call with that event. -/
theorem timeout_trigger_witness :
    monitor_cycle (mkBuf 3 5 [1] 0) 5 true =
      ({ mkBuf 3 5 [1] 0 with events := [] }, some [1], true) := by
  have h := (timeout_trigger (mkBuf 3 5 [1] 0) 5 true).1 (by decide) (by decide)
  simpa using h

/-- Claim C2: when the sink fails, the failing operation leaves `events`
exactly as they were when the sink was invoked and reports the failure to its
immediate caller, for all three entry points: a direct `flush_jobs` call, an
`add_job` whose threshold-triggered flush fails, and a monitor cycle whose
flush fails.  (Each operation makes at most one sink attempt: no retry; the
`false` outcome is the propagating exception: no suppression.) -/
theorem error_atomicity (b : JobBuffer E) (e : E) (now : Int)
    (h1 : b.events ≠ [])
    (h2 : b.max_size ≤ (b.events.length : Int) + 1)
    (h3 : b.timeout ≤ now - b.last_event_time) :
    flush_jobs b false = (b, some b.events, false) ∧
    add_job b e now false =
      ({ b with events := b.events ++ [e], last_event_time := now },
        some (b.events ++ [e]), false) ∧
    monitor_cycle b now false = (b, some b.events, false) := by
  refine ⟨?_, ?_, ?_⟩
  · simp [flush_jobs, List.isEmpty_iff, h1]
  · have hcond : b.max_size ≤ (((b.events ++ [e]).length : Nat) : Int) := by
      simp only [List.length_append, List.length_singleton]
      push_cast
      omega
    unfold add_job
    rw [if_pos hcond]
    simp [flush_jobs, List.isEmpty_iff]
  · simp [monitor_cycle, flush_jobs, h3, List.isEmpty_iff, h1]

/-- Witness for C2 at a concrete buffer with one pending event. -/
theorem error_atomicity_witness :
    flush_jobs (mkBuf 2 5 [1] 0) false = (mkBuf 2 5 [1] 0, some [1], false) ∧
    add_job (mkBuf 2 5 [1] 0) 2 5 false =
      (mkBuf 2 5 [1, 2] 5, some [1, 2], false) ∧
    monitor_cycle (mkBuf 2 5 [1] 0) 5 false =
      (mkBuf 2 5 [1] 0, some [1], false) := by
  have h := error_atomicity (mkBuf 2 5 [1] 0) 2 5
    (by decide) (by decide) (by decide)
  simpa [mkBuf] using h

/-- Counterexample for C7 as stated: a direct external `flush_jobs` call on a
buffer with one pending event touches the shared `events` state with the lock
not held — the method's trace contains no lock acquisition at all. -/
theorem lock_discipline_cex :
    touchesLocked 0 (flushTrace (mkBuf 3 5 [1] 0) true) = false ∧
    flushTrace (mkBuf 3 5 [1] 0) true =
      [Act.touchEvents, Act.touchEvents, Act.sink [1], Act.touchEvents] := by
  constructor <;> rfl

/-- Claim C7 amended: `add_job` and the monitor's check-and-flush acquire the
lock before touching shared state and keep it held through the sink
invocation; `flush_jobs` itself performs no lock acquisition — it relies on
its caller holding the lock, so a direct external call touches shared state
(starting from lock depth 0) with the lock not held. -/
theorem lock_discipline_amended (b : JobBuffer E) (e : E) (now : Int)
    (sinkOk : Bool) :
    touchesLocked 0 (addTrace b e now sinkOk) = true ∧
    touchesLocked 0 (monitorCycleTrace b now sinkOk) = true ∧
    acquires (flushTrace b sinkOk) = 0 ∧
    touchesLocked 0 (flushTrace b sinkOk) = false := by
  refine ⟨?_, ?_, flushTrace_acquires b sinkOk, ?_⟩
  · unfold addTrace
    simp only [touchesLocked, decide_True, Bool.true_and, Nat.succ_ne_zero,
      ne_eq, not_false_eq_true]
    split
    · exact flushTrace_touchesLocked _ _ 1 (by decide) [Act.release]
        (by simp [touchesLocked])
    · simp [touchesLocked]
  · unfold monitorCycleTrace
    simp only [touchesLocked, decide_True, Bool.true_and, Nat.succ_ne_zero,
      ne_eq, not_false_eq_true]
    split
    · exact flushTrace_touchesLocked _ _ 1 (by decide) [Act.release]
        (by simp [touchesLocked])
    · simp [touchesLocked]
  · unfold flushTrace
    simp [touchesLocked]

/-- Counterexample for C10 as stated: with `max_size = 1`, after a first
`add_job` whose sink failed (leaving event 7 buffered), a second `add_job`
whose sink invocation succeeds hands the sink the batch `[7, 8]` — two
events, not at most the single event just appended. -/
theorem no_capacity_validation_cex :
    (add_job (initBuffer Nat 1 5 0) 7 1 false).1.events = [7] ∧
    (add_job (add_job (initBuffer Nat 1 5 0) 7 1 false).1 8 2 true).2 =
      (some [7, 8], true) := by
  constructor <;> rfl

/-- Claim C10 amended: the constructor accepts any integer `max_size`
(including zero and negative values) without validation; for every
`max_size ≤ 1`, every `add_job` with a succeeding sink triggers an immediate
flush whose batch is the entire pending sequence ending in the event just
appended, and the buffer is empty afterwards; the batch is exactly that
single event when the buffer was empty before the call (as when all previous
flush attempts succeeded). -/
theorem no_capacity_validation_amended (b : JobBuffer E) (e : E)
    (m t n0 now : Int) (hm : b.max_size ≤ 1) :
    (initBuffer E m t n0).max_size = m ∧
    add_job b e now true =
      ({ b with events := [], last_event_time := now },
        some (b.events ++ [e]), true) ∧
    (b.events = [] →
      add_job b e now true =
        ({ b with events := [], last_event_time := now }, some [e], true)) := by
  have hcond : b.max_size ≤ (((b.events ++ [e]).length : Nat) : Int) := by
    simp only [List.length_append, List.length_singleton]
    push_cast
    omega
  have hmain : add_job b e now true =
      ({ b with events := [], last_event_time := now },
        some (b.events ++ [e]), true) := by
    unfold add_job
    rw [if_pos hcond]
    simp [flush_jobs, List.isEmpty_iff]
  refine ⟨rfl, hmain, fun he => ?_⟩
  rw [hmain, he]
  simp

/-- Witness for C10 amended: a buffer constructed with the negative capacity
`-2` accepts an add and flushes it alone. -/
theorem no_capacity_validation_witness :
    (mkBuf (-2) 5 [] 0).max_size ≤ 1 ∧
    add_job (mkBuf (-2) 5 [] 0) 4 3 true =
      ({ mkBuf (-2) 5 [] 0 with events := [], last_event_time := 3 },
        some [4], true) :=
  ⟨by decide,
    (no_capacity_validation_amended (mkBuf (-2) 5 [] 0) 4 0 0 0 3
      (by decide)).2.2 rfl⟩

lemma flush_jobs_fail_state (b : JobBuffer E) : (flush_jobs b false).1 = b := by
  unfold flush_jobs
  split <;> simp

lemma add_job_fail_events (b : JobBuffer E) (e : E) (now : Int) :
    (add_job b e now false).1.events = b.events ++ [e] := by
  simp only [add_job]
  split
  · rw [flush_jobs_fail_state]
  · rfl

/-- A single operation whose sink interaction reports no success leaves the
buffered events equal to the previous events plus whatever it appended. -/
lemma step_noSuccess (b : JobBuffer E) (op : Op E)
    (h : outSuccess (outOf (stepOp b op)) = false) :
    (stepOp b op).1.events = b.events ++ addsOf [op] := by
  cases op with
  | add e now ok =>
    simp only [stepOp, addsOf, List.filterMap] at h ⊢
    simp only [add_job] at h ⊢
    by_cases hc : b.max_size ≤ (((b.events ++ [e]).length : Nat) : Int)
    · rw [if_pos hc] at h ⊢
      cases ok with
      | false => rw [flush_jobs_fail_state]
      | true =>
        exfalso
        have hne : ((b.events ++ [e]).isEmpty) = false := by simp
        simp [flush_jobs, outOf, outSuccess, hne] at h
    · rw [if_neg hc]
  | flush ok =>
    simp only [stepOp, addsOf, List.filterMap, List.append_nil]
    cases ok with
    | false => rw [flush_jobs_fail_state]
    | true =>
      unfold flush_jobs
      split
      · rfl
      · exfalso
        simp [stepOp, flush_jobs, outOf, outSuccess, *] at h
  | monitorWake now ok =>
    simp only [stepOp, addsOf, List.filterMap, List.append_nil]
    unfold monitor_cycle
    split
    · cases ok with
      | false => rw [flush_jobs_fail_state]
      | true =>
        unfold flush_jobs
        split
        · rfl
        · exfalso
          simp [stepOp, monitor_cycle, flush_jobs, outOf, outSuccess, *] at h
    · rfl

lemma addsOf_cons (op : Op E) (ops : List (Op E)) :
    addsOf (op :: ops) = addsOf [op] ++ addsOf ops := by
  cases op <;> simp [addsOf, List.filterMap_cons]

/-- Claim C3 core: a run in which no sink call succeeds only appends events:
the buffered sequence ends as the starting sequence followed, in order, by
every event the run's `add` operations appended. -/
lemma noSuccess_run (ops : List (Op E)) : ∀ b : JobBuffer E,
    hasSuccess (runOps b ops).2 = false →
    (runOps b ops).1.events = b.events ++ addsOf ops := by
  induction ops with
  | nil => intro b _; simp [runOps, addsOf]
  | cons op rest ih =>
    intro b h
    simp only [runOps, hasSuccess, List.any_cons, Bool.or_eq_false_iff] at h
    obtain ⟨h1, h2⟩ := h
    simp only [runOps]
    rw [ih _ h2, step_noSuccess b op h1]
    cases op <;> simp [addsOf, List.filterMap_cons]

/-- Claim C3: after a flush attempt on pending events E fails (leaving the
buffer unchanged), any run of further operations none of whose sink calls
succeeds keeps E as a prefix of the buffer in its original order, with the
events added after the failure appended behind it; the next successful flush
then delivers exactly that prefix-preserving superset of E as its batch and
clears the buffer. -/
theorem at_least_once (b : JobBuffer E) (ops : List (Op E))
    (hne : b.events ≠ [])
    (hns : hasSuccess (runOps (flush_jobs b false).1 ops).2 = false) :
    (runOps (flush_jobs b false).1 ops).1.events = b.events ++ addsOf ops ∧
    flush_jobs (runOps (flush_jobs b false).1 ops).1 true =
      ({ (runOps (flush_jobs b false).1 ops).1 with events := [] },
        some (b.events ++ addsOf ops), true) := by
  rw [flush_jobs_fail_state] at hns ⊢
  have hev := noSuccess_run ops b hns
  refine ⟨hev, ?_⟩
  have hflat : (b.events ++ addsOf ops).isEmpty = false := by
    cases he : b.events with
    | nil => exact absurd he hne
    | cons x xs => simp
  unfold flush_jobs
  rw [hev, hflat]
  simp

/-- Witness for C3: a failed flush of [1], then a failing add of 2 and a
failing manual flush; the subsequent successful flush delivers [1, 2]. -/
theorem at_least_once_witness :
    (mkBuf 3 5 [1] 0).events ≠ [] ∧
    hasSuccess (runOps (flush_jobs (mkBuf 3 5 [1] 0) false).1
      [Op.add 2 7 false, Op.flush false]).2 = false ∧
    ((runOps (flush_jobs (mkBuf 3 5 [1] 0) false).1
        [Op.add 2 7 false, Op.flush false]).1.events =
      (mkBuf 3 5 [1] 0).events ++ addsOf [Op.add 2 7 false, Op.flush false] ∧
    flush_jobs (runOps (flush_jobs (mkBuf 3 5 [1] 0) false).1
        [Op.add 2 7 false, Op.flush false]).1 true =
      ({ (runOps (flush_jobs (mkBuf 3 5 [1] 0) false).1
          [Op.add 2 7 false, Op.flush false]).1 with events := [] },
        some ((mkBuf 3 5 [1] 0).events ++ addsOf [Op.add 2 7 false, Op.flush false]),
        true)) :=
  ⟨by decide, by decide,
    at_least_once (mkBuf 3 5 [1] 0) [Op.add 2 7 false, Op.flush false]
      (by decide) (by decide)⟩

/-- A run consisting only of `add_job` calls whose sink always fails appends
every event to the buffer, whatever `max_size` is. -/
lemma failAdds_events (ps : List (E × Int)) : ∀ b : JobBuffer E,
    (runOps b (ps.map fun p => Op.add p.1 p.2 false)).1.events
      = b.events ++ ps.map (fun p => p.1) := by
  induction ps with
  | nil => intro b; simp [runOps]
  | cons p ps ih =>
    intro b
    simp only [List.map_cons, runOps, stepOp]
    rw [ih, add_job_fail_events]
    simp

/-- Claim C8: if the sink fails on every flush attempt while producers keep
calling `add_job`, then after n appends starting from a fresh buffer the
buffered sequence holds exactly all n events in insertion order — its length
equals n whatever `max_size` is, growing past the capacity without bound, and
no event is dropped; the threshold only triggers attempts, never guaranteed
reductions. -/
theorem unbounded_growth (m t n0 : Int) (ps : List (E × Int)) :
    (runOps (initBuffer E m t n0)
        (ps.map fun p => Op.add p.1 p.2 false)).1.events
      = ps.map (fun p => p.1) ∧
    ((runOps (initBuffer E m t n0)
        (ps.map fun p => Op.add p.1 p.2 false)).1.events).length = ps.length := by
  have h := failAdds_events ps (initBuffer E m t n0)
  rw [h]
  constructor <;> simp [initBuffer]

/-- The monitor loop only ever executes the initial run of checks at which
`alive.is_set()` still returned true: the first false check ends the loop. -/
lemma monitorLoop_takeWhile (sch : List (Bool × Int × Bool)) :
    ∀ b : JobBuffer E,
      monitorLoop b sch = monitorLoop b (sch.takeWhile fun w => w.1) := by
  induction sch with
  | nil => intro b; rfl
  | cons w rest ih =>
    intro b
    by_cases hw : w.1 = true
    · rw [List.takeWhile_cons_of_pos hw]
      simp only [monitorLoop, hw, if_true]
      rw [ih]
    · have hw' : w.1 = false := by
        cases h : w.1
        · rfl
        · exact absurd h hw
      rw [List.takeWhile_cons_of_neg (by rw [hw']; exact Bool.false_ne_true)]
      simp [monitorLoop, hw']

/-- Each executed monitor cycle makes at most one sink call. -/
lemma monitorLoop_calls_le (sch : List (Bool × Int × Bool)) :
    ∀ b : JobBuffer E, (monitorLoop b sch).2.length ≤ sch.length := by
  induction sch with
  | nil => intro b; simp [monitorLoop]
  | cons w rest ih =>
    intro b
    simp only [monitorLoop]
    by_cases hw : w.1 = true
    · rw [if_pos hw]
      by_cases hs : (monitor_cycle b w.2.1 w.2.2).2.2 = true
      · rw [if_pos hs]
        simp only [List.length_append, List.length_cons]
        have h1 : ((monitor_cycle b w.2.1 w.2.2).2.1.map
            fun batch => (batch, true)).toList.length ≤ 1 := by
          cases (monitor_cycle b w.2.1 w.2.2).2.1 <;> simp
        have h2 := ih (monitor_cycle b w.2.1 w.2.2).1
        omega
      · rw [if_neg hs]
        simp only [List.length_cons]
        have h1 : ((monitor_cycle b w.2.1 w.2.2).2.1.map
            fun batch => (batch, false)).toList.length ≤ 1 := by
          cases (monitor_cycle b w.2.1 w.2.2).2.1 <;> simp
        omega
    · rw [if_neg hw]
      simp

/-- Claim C6: once `alive.is_set()` reads false at a top-of-loop check, the
monitor executes nothing further — its whole execution equals the execution
over the initial all-alive prefix of checks (the loop terminates at the first
false check, with no restart), and it makes at most one sink call per cycle
of that prefix, hence at most one sink call from the single in-flight cycle
whose check preceded the clearing of the flag. -/
theorem monitor_shutdown (b : JobBuffer E) (sch : List (Bool × Int × Bool)) :
    monitorLoop b sch = monitorLoop b (sch.takeWhile fun w => w.1) ∧
    (monitorLoop b sch).2.length ≤ (sch.takeWhile fun w => w.1).length := by
  refine ⟨monitorLoop_takeWhile sch b, ?_⟩
  rw [monitorLoop_takeWhile sch b]
  exact monitorLoop_calls_le (sch.takeWhile fun w => w.1) b

lemma runOps_append (l1 l2 : List (Op E)) : ∀ b : JobBuffer E,
    runOps b (l1 ++ l2) =
      ((runOps (runOps b l1).1 l2).1,
        (runOps b l1).2 ++ (runOps (runOps b l1).1 l2).2) := by
  induction l1 with
  | nil => intro b; simp [runOps]
  | cons op rest ih =>
    intro b
    simp only [List.cons_append, runOps, List.append_eq]
    rw [ih]

lemma flush_jobs_max_size (b : JobBuffer E) (sinkOk : Bool) :
    (flush_jobs b sinkOk).1.max_size = b.max_size := by
  unfold flush_jobs
  split
  · rfl
  · split <;> rfl

lemma stepOp_max_size (b : JobBuffer E) (op : Op E) :
    (stepOp b op).1.max_size = b.max_size := by
  cases op with
  | add e now ok =>
    simp only [stepOp, add_job]
    split
    · rw [flush_jobs_max_size]
    · rfl
  | flush ok => simp only [stepOp]; rw [flush_jobs_max_size]
  | monitorWake now ok =>
    simp only [stepOp, monitor_cycle]
    split
    · rw [flush_jobs_max_size]
    · rfl

lemma runOps_max_size (ops : List (Op E)) : ∀ b : JobBuffer E,
    (runOps b ops).1.max_size = b.max_size := by
  induction ops with
  | nil => intro b; rfl
  | cons op rest ih =>
    intro b
    simp only [runOps]
    rw [ih, stepOp_max_size]

/-- The sink interaction of the k-th operation of a run is the interaction of
that operation applied to the state reached after the first k operations. -/
lemma runOps_out (ops : List (Op E)) : ∀ (b : JobBuffer E) (k : Nat),
    (runOps b ops).2[k]? =
      (ops[k]?).map fun op => outOf (stepOp (runOps b (ops.take k)).1 op) := by
  induction ops with
  | nil => intro b k; simp [runOps]
  | cons op rest ih =>
    intro b k
    cases k with
    | zero => simp [runOps]
    | succ k =>
      simp only [runOps, List.take_succ_cons, List.getElem?_cons_succ]
      exact ih (stepOp b op).1 k

/-- One successful `add_job` on a buffer holding `k % m` events with capacity
`m`: when the new count `k % m + 1` reaches `m` the triggered flush empties
the buffer and hands the sink the whole appended sequence; otherwise the event
is just appended. -/
lemma addOk_step (bk : JobBuffer E) (x : E) (now : Int) (m k : Nat)
    (hm : 1 ≤ m) (hmax : bk.max_size = (m : Int))
    (hlen : bk.events.length = k % m) :
    add_job bk x now true =
      (if (k + 1) % m = 0
       then ({ bk with events := [], last_event_time := now },
         some (bk.events ++ [x]), true)
       else ({ bk with events := bk.events ++ [x], last_event_time := now },
         none, true)) := by
  have hmodlt : k % m < m := Nat.mod_lt k (by omega)
  have hsucc : (k + 1) % m = if k % m + 1 = m then 0 else k % m + 1 := by
    rcases Nat.lt_or_ge 1 m with hm2 | hm1
    · rw [Nat.add_mod, Nat.mod_eq_of_lt hm2]
      split
      · simp [*]
      · exact Nat.mod_eq_of_lt (by omega)
    · have hme : m = 1 := by omega
      subst hme
      simp [Nat.mod_one]
  by_cases hc : k % m + 1 = m
  · have hcond : bk.max_size ≤ (((bk.events ++ [x]).length : Nat) : Int) := by
      rw [hmax, List.length_append, hlen, List.length_singleton]
      push_cast
      omega
    have hz : (k + 1) % m = 0 := by rw [hsucc, if_pos hc]
    simp only [add_job]
    rw [if_pos hcond, if_pos hz]
    unfold flush_jobs
    have hne : ((bk.events ++ [x]).isEmpty) = false := by simp
    rw [hne]
    simp
  · have hcond : ¬ bk.max_size ≤ (((bk.events ++ [x]).length : Nat) : Int) := by
      rw [hmax, List.length_append, hlen, List.length_singleton]
      push_cast
      omega
    have hz : (k + 1) % m ≠ 0 := by
      rw [hsucc, if_neg hc]
      omega
    simp only [add_job]
    rw [if_neg hcond, if_neg hz]

lemma mod_succ_cases (m k : Nat) (hm : 1 ≤ m) :
    (k + 1) % m = if k % m + 1 = m then 0 else k % m + 1 := by
  rcases Nat.lt_or_ge 1 m with hm2 | hm1
  · rw [Nat.add_mod, Nat.mod_eq_of_lt hm2]
    split
    · simp [*]
    · have hmodlt : k % m < m := Nat.mod_lt k (by omega)
      exact Nat.mod_eq_of_lt (by omega)
  · have hme : m = 1 := by omega
    subst hme
    simp [Nat.mod_one]

lemma mapTake_drop_succ (ps : List (E × Int)) (k j : Nat) (hklt : k < ps.length)
    (hj : j ≤ k) :
    ((ps.map fun p => p.1).take (k + 1)).drop j
      = ((ps.map fun p => p.1).take k).drop j ++ [(ps.get ⟨k, hklt⟩).1] := by
  have h1 : (ps.map fun p => p.1).take (k + 1)
      = (ps.map fun p => p.1).take k ++ [(ps.get ⟨k, hklt⟩).1] := by
    rw [List.take_succ, List.getElem?_map, List.getElem?_eq_getElem hklt]
    rfl
  have hlen2 : j ≤ ((ps.map fun p => p.1).take k).length := by
    rw [List.length_take, List.length_map,
      Nat.min_eq_left (Nat.le_of_lt hklt)]
    exact hj
  rw [h1, List.drop_append_of_le_length hlen2]

lemma mapTake_events_length (ps : List (E × Int)) (m k : Nat)
    (hk : k ≤ ps.length) :
    (((ps.map fun p => p.1).take k).drop (k - k % m)).length = k % m := by
  rw [List.length_drop, List.length_take, List.length_map,
    Nat.min_eq_left hk]
  have := Nat.mod_le k m
  omega

/-- State characterization of an all-successful add run from a fresh buffer
with capacity m: after k adds the buffer retains exactly the trailing
`k % m` events, every earlier block of m having been flushed. -/
lemma addOkRun_events (m : Nat) (ps : List (E × Int)) (b0 : JobBuffer E)
    (hm : 1 ≤ m) (hms : b0.max_size = (m : Int)) (hev : b0.events = []) :
    ∀ k, k ≤ ps.length →
      (runOps b0 ((ps.take k).map fun p => Op.add p.1 p.2 true)).1.events
        = ((ps.map fun p => p.1).take k).drop (k - k % m) := by
  intro k
  induction k with
  | zero =>
    intro _
    simp [runOps, hev]
  | succ k ih =>
    intro hk1
    have hklt : k < ps.length := by omega
    have hprev := ih (by omega)
    have htake : ps.take (k + 1) = ps.take k ++ [ps.get ⟨k, hklt⟩] := by
      rw [List.take_succ, List.getElem?_eq_getElem hklt]
      rfl
    have hmax : (runOps b0 ((ps.take k).map fun p => Op.add p.1 p.2 true)).1.max_size
        = (m : Int) := by rw [runOps_max_size, hms]
    have hlen : (runOps b0 ((ps.take k).map fun p => Op.add p.1 p.2 true)).1.events.length
        = k % m := by
      rw [hprev]
      exact mapTake_events_length ps m k (by omega)
    rw [htake, List.map_append, runOps_append]
    simp only [List.map_cons, List.map_nil, runOps, stepOp]
    rw [addOk_step _ _ _ m k hm hmax hlen]
    split
    · -- the triggered flush emptied the buffer
      have hz : (k + 1) % m = 0 := by assumption
      rw [hz]
      simp only [Nat.sub_zero]
      have hnil : ((ps.map fun p => p.1).take (k + 1)).drop (k + 1) = [] := by
        apply List.drop_eq_nil_of_le
        rw [List.length_take, List.length_map]
        omega
      rw [hnil]
    · -- no flush: the event was appended
      have hz : ¬ (k + 1) % m = 0 := by assumption
      have hcase := mod_succ_cases m k hm
      have hne : k % m + 1 ≠ m := by
        intro hc
        rw [hcase, if_pos hc] at hz
        exact hz rfl
      have h1 : (k + 1) % m = k % m + 1 := by rw [hcase, if_neg hne]
      have hmod : k % m ≤ k := Nat.mod_le k m
      rw [h1]
      have h2 : k + 1 - (k % m + 1) = k - k % m := by omega
      rw [h2, mapTake_drop_succ ps k (k - k % m) hklt (by omega), hprev]

lemma acquires_append (l1 l2 : List (Act E)) :
    acquires (l1 ++ l2) = acquires l1 + acquires l2 := by
  induction l1 with
  | nil => simp [acquires]
  | cons a r ih =>
    cases a <;> (simp [acquires, ih]; try omega)

/-- Claim C1: over any sequence of `add_job` calls whose triggered flushes all
succeed, starting from a fresh buffer with capacity `m ≥ 1`: (state clause)
after k adds the buffer retains exactly the adds since the last flush — in
particular it is empty immediately after each flush; (trigger clause) the
k-th add invokes the sink exactly when the count reaches `m`, i.e. when
`(k+1) % m = 0`, and then hands it the last m events in insertion order,
successfully; (batch-size clause) such a batch has exactly m events; (lock
clauses) `add_job` performs exactly one lock acquisition, and every touch of
shared state and the sink invocation happen under it. -/
theorem size_trigger_exactness (m : Nat) (t n0 : Int) (ps : List (E × Int))
    (k : Nat) (c : JobBuffer E) (e : E) (now : Int)
    (hm : 1 ≤ m) (hk : k ≤ ps.length) :
    (runOps (initBuffer E m t n0)
        ((ps.take k).map fun p => Op.add p.1 p.2 true)).1.events
      = ((ps.map fun p => p.1).take k).drop (k - k % m) ∧
    (k < ps.length →
      (runOps (initBuffer E m t n0)
          (ps.map fun p => Op.add p.1 p.2 true)).2[k]?
        = some (if (k + 1) % m = 0
            then some (((ps.map fun p => p.1).take (k + 1)).drop (k + 1 - m), true)
            else none)) ∧
    (k < ps.length → (k + 1) % m = 0 →
      (((ps.map fun p => p.1).take (k + 1)).drop (k + 1 - m)).length = m) ∧
    acquires (addTrace c e now true) = 1 ∧
    touchesLocked 0 (addTrace c e now true) = true := by
  have hstate := addOkRun_events m ps (initBuffer E m t n0) hm rfl rfl
  refine ⟨hstate k hk, ?_, ?_, ?_, ?_⟩
  · intro hklt
    rw [runOps_out, List.getElem?_map, List.getElem?_eq_getElem hklt]
    have htk : (List.map (fun p => Op.add p.1 p.2 true) ps).take k
        = (ps.take k).map fun p => Op.add p.1 p.2 true := by
      rw [List.map_take]
    rw [htk]
    have hmax : (runOps (initBuffer E m t n0)
        ((ps.take k).map fun p => Op.add p.1 p.2 true)).1.max_size = (m : Int) := by
      rw [runOps_max_size]
      rfl
    have hlen : (runOps (initBuffer E m t n0)
        ((ps.take k).map fun p => Op.add p.1 p.2 true)).1.events.length = k % m := by
      rw [hstate k (by omega)]
      exact mapTake_events_length ps m k (by omega)
    simp only [Option.map_map, Option.map_some', Function.comp, stepOp]
    rw [addOk_step _ _ _ m k hm hmax hlen]
    by_cases hz : (k + 1) % m = 0
    · rw [if_pos hz, if_pos hz]
      have hcase := mod_succ_cases m k hm
      have heq : k % m + 1 = m := by
        by_contra hc
        rw [hcase, if_neg hc] at hz
        omega
      have hmod : k % m ≤ k := Nat.mod_le k m
      have hsub : k + 1 - m = k - k % m := by omega
      rw [hsub, mapTake_drop_succ ps k (k - k % m) hklt (by omega),
        hstate k (by omega)]
      simp [outOf]
    · rw [if_neg hz, if_neg hz]
      simp [outOf]
  · intro hklt hz
    have hdvd : m ∣ (k + 1) := Nat.dvd_of_mod_eq_zero hz
    have hmle : m ≤ k + 1 := Nat.le_of_dvd (by omega) hdvd
    rw [List.length_drop, List.length_take, List.length_map,
      Nat.min_eq_left (by omega)]
    omega
  · unfold addTrace
    simp only [acquires]
    split
    · rw [acquires_append, flushTrace_acquires]
      simp [acquires]
    · simp [acquires]
  · exact (lock_discipline_amended c e now true).1

/-- Witness for C1: capacity 2, three adds; after one add the buffer holds
[10]; the second add (index 1) flushes exactly [10, 20]; the lock discipline
of `add_job` holds at a concrete buffer. -/
theorem size_trigger_exactness_witness :
    (runOps (initBuffer Nat 2 9 0)
        (([((10 : Nat), (0 : Int)), (20, 1), (30, 2)].take 1).map
          fun p => Op.add p.1 p.2 true)).1.events = [10] ∧
    (runOps (initBuffer Nat 2 9 0)
        ([((10 : Nat), (0 : Int)), (20, 1), (30, 2)].map
          fun p => Op.add p.1 p.2 true)).2[1]? = some (some ([10, 20], true)) ∧
    acquires (addTrace (mkBuf 2 9 [] 0) 7 3 true) = 1 ∧
    touchesLocked 0 (addTrace (mkBuf 2 9 [] 0) 7 3 true) = true := by
  obtain ⟨h1, h2, h3, h4, h5⟩ := size_trigger_exactness 2 9 0
    [((10 : Nat), (0 : Int)), (20, 1), (30, 2)] 1 (mkBuf 2 9 [] 0) 7 3
    (by decide) (by decide)
  refine ⟨?_, ?_, h4, h5⟩
  · simpa using h1
  · have h := h2 (by decide)
    simpa using h
